import Mathlib

/-!
Verification development for the `typescript` code-generator plugin
(`packages/plugins/typescript/typescript/src/index.ts`).

The file shallowly embeds the plugin entry point `plugin`, the helper
`includeIntrospectionDefinitions` and its inner recursion `collectTypes`
(the three functions of the source file), over an explicit model of the
GraphQL data the plugin consumes: named types, type references, the
schema type map, the fixed introspection meta-schema, and parsed
operation documents.

Parts of the repository that the source file calls but whose code is not
available here (the `TsVisitor` declaration emitter of `./visitor`, the
`TsIntrospectionVisitor`, and the `graphql` library's `printSchema` /
`visit` / `TypeInfo` plumbing) are modelled from the specification; each
such definition carries a doc comment starting with `Modelled from the
spec:`.  Everything in `index.ts` itself (branching on `generateOnly`,
the enum filter, list assembly and joining, the used-type collection and
the `collectTypes` recursion) is translated directly from the source.
-/

/-- A GraphQL type-reference: a name possibly wrapped in List/NonNull
modifiers (the small recursive structure of the data model). -/
inductive TypeRef where
  | named (name : String)
  | listOf (inner : TypeRef)
  | nonNull (inner : TypeRef)
deriving DecidableEq, Repr

/-- The underlying named type of a reference; models `getNamedType` of
the graphql library (unwraps all List/NonNull modifiers). -/
def TypeRef.baseName : TypeRef → String
  | .named n => n
  | .listOf t => t.baseName
  | .nonNull t => t.baseName

/-- The six variants of a GraphQL named type. -/
inductive TypeKind where
  | scalar
  | enum
  | object
  | interface
  | union
  | inputObject
deriving DecidableEq, Repr

/-- A field of an Object/InputObject type: a name and a type reference. -/
structure FieldDef where
  name : String
  type : TypeRef
deriving DecidableEq, Repr

/-- A named type of the schema: one of the six variants, with its fields
(Object/InputObject), enum values (Enum) or member type names
(Interface implementers / Union members). -/
structure NamedType where
  name : String
  kind : TypeKind
  fields : List FieldDef := []
  enumValues : List String := []
  members : List String := []
deriving DecidableEq, Repr

/-- A schema: the ordered type map of user-authored named types.  The
built-in scalars and the introspection meta-types are part of every
schema's full type map and are modelled separately as fixed lists. -/
structure Schema where
  types : List NamedType
deriving DecidableEq, Repr

/-- Modelled from the spec: a parsed operation document, reduced to what
the plugin reads from it.  `includeIntrospectionDefinitions` visits every
field selection of every document with a type-aware visitor and looks
only at the named type that `TypeInfo` resolves for the field; a document
is therefore modelled as that list of resolved named-type names, in
visitation order. -/
structure Document where
  fieldTypes : List String
deriving DecidableEq, Repr

/-- The five built-in scalar types present in every schema's type map. -/
def builtinScalars : List NamedType :=
  [ { name := "Int", kind := .scalar },
    { name := "Float", kind := .scalar },
    { name := "String", kind := .scalar },
    { name := "Boolean", kind := .scalar },
    { name := "ID", kind := .scalar } ]

/-- Shorthand for a NonNull-wrapped named type reference. -/
def nnRef (s : String) : TypeRef := .nonNull (.named s)

/-- Shorthand for a NonNull list of NonNull named types. -/
def nnListRef (s : String) : TypeRef := .nonNull (.listOf (.nonNull (.named s)))

/-- Shorthand for a nullable list of NonNull named types. -/
def listNNRef (s : String) : TypeRef := .listOf (.nonNull (.named s))

/-- The `__Schema` introspection meta-type (graphql-js v14 fields). -/
def introSchemaType : NamedType :=
  { name := "__Schema", kind := .object,
    fields :=
      [ ⟨"types", nnListRef "__Type"⟩,
        ⟨"queryType", nnRef "__Type"⟩,
        ⟨"mutationType", .named "__Type"⟩,
        ⟨"subscriptionType", .named "__Type"⟩,
        ⟨"directives", nnListRef "__Directive"⟩ ] }

/-- The `__Type` introspection meta-type (graphql-js v14 fields). -/
def introTypeType : NamedType :=
  { name := "__Type", kind := .object,
    fields :=
      [ ⟨"kind", nnRef "__TypeKind"⟩,
        ⟨"name", .named "String"⟩,
        ⟨"description", .named "String"⟩,
        ⟨"fields", listNNRef "__Field"⟩,
        ⟨"interfaces", listNNRef "__Type"⟩,
        ⟨"possibleTypes", listNNRef "__Type"⟩,
        ⟨"enumValues", listNNRef "__EnumValue"⟩,
        ⟨"inputFields", listNNRef "__InputValue"⟩,
        ⟨"ofType", .named "__Type"⟩ ] }

/-- The `__Field` introspection meta-type (graphql-js v14 fields). -/
def introFieldType : NamedType :=
  { name := "__Field", kind := .object,
    fields :=
      [ ⟨"name", nnRef "String"⟩,
        ⟨"description", .named "String"⟩,
        ⟨"args", nnListRef "__InputValue"⟩,
        ⟨"type", nnRef "__Type"⟩,
        ⟨"isDeprecated", nnRef "Boolean"⟩,
        ⟨"deprecationReason", .named "String"⟩ ] }

/-- The `__InputValue` introspection meta-type (graphql-js v14 fields). -/
def introInputValueType : NamedType :=
  { name := "__InputValue", kind := .object,
    fields :=
      [ ⟨"name", nnRef "String"⟩,
        ⟨"description", .named "String"⟩,
        ⟨"type", nnRef "__Type"⟩,
        ⟨"defaultValue", .named "String"⟩ ] }

/-- The `__EnumValue` introspection meta-type (graphql-js v14 fields). -/
def introEnumValueType : NamedType :=
  { name := "__EnumValue", kind := .object,
    fields :=
      [ ⟨"name", nnRef "String"⟩,
        ⟨"description", .named "String"⟩,
        ⟨"isDeprecated", nnRef "Boolean"⟩,
        ⟨"deprecationReason", .named "String"⟩ ] }

/-- The `__TypeKind` introspection enum. -/
def introTypeKindType : NamedType :=
  { name := "__TypeKind", kind := .enum,
    enumValues := ["SCALAR", "OBJECT", "INTERFACE", "UNION", "ENUM", "INPUT_OBJECT", "LIST", "NON_NULL"] }

/-- The `__Directive` introspection meta-type (graphql-js v14 fields). -/
def introDirectiveType : NamedType :=
  { name := "__Directive", kind := .object,
    fields :=
      [ ⟨"name", nnRef "String"⟩,
        ⟨"description", .named "String"⟩,
        ⟨"locations", nnListRef "__DirectiveLocation"⟩,
        ⟨"args", nnListRef "__InputValue"⟩ ] }

/-- The `__DirectiveLocation` introspection enum. -/
def introDirectiveLocationType : NamedType :=
  { name := "__DirectiveLocation", kind := .enum,
    enumValues := ["QUERY", "MUTATION", "SUBSCRIPTION", "FIELD", "FRAGMENT_DEFINITION", "FRAGMENT_SPREAD", "INLINE_FRAGMENT"] }

/-- The introspection meta-schema: the eight reflection types the
graphql library attaches to every schema, in the order
`printIntrospectionSchema` prints them. -/
def introspectionTypes : List NamedType :=
  [ introSchemaType, introTypeType, introFieldType, introInputValueType,
    introEnumValueType, introTypeKindType, introDirectiveType,
    introDirectiveLocationType ]

/-- Names of the introspection meta-types; `isIntrospectionType` of the
graphql library holds exactly for these. -/
def introspectionTypeNames : List String := introspectionTypes.map (fun t => t.name)

/-- The full type map of a schema: user types, built-in scalars and the
introspection meta-types. -/
def typeMap (s : Schema) : List NamedType := s.types ++ builtinScalars ++ introspectionTypes

/-- Look a named type up in the schema's full type map. -/
def lookupType (s : Schema) (n : String) : Option NamedType :=
  (typeMap s).find? (fun t => decide (t.name = n))

/-- The plugin configuration: the options of `TypeScriptPluginConfig`
and of its base `RawTypesConfig` that the plugin's behaviour depends on.
`generateOnly` is `Option` because the source tests the key for
presence (`config.generateOnly && ...`); the two final lists stand for
the import lines the configured external enum/scalar mappings induce
(modelled from the spec: prepend lines are import/alias statements). -/
structure TypeScriptPluginConfig where
  avoidOptionals : Bool := false
  constEnums : Bool := false
  enumsAsTypes : Bool := false
  immutableTypes : Bool := false
  maybeValue : Option String := none
  noExport : Bool := false
  generateOnly : Option (List String) := none
  scalars : List (String × String) := []
  enumsImports : List String := []
  scalarsImports : List String := []
deriving DecidableEq, Repr

/-- Text constant: the `export ` keyword. -/
def exportKw : String := "export "

/-- Text constant: the `type ` keyword of an alias declaration. -/
def typeKw : String := "type "

/-- Text constant: the ` = ` separator of an alias declaration. -/
def eqSep : String := " = "

/-- Text constant: the `enum ` keyword. -/
def enumKw : String := "enum "

/-- Text constant: the `const enum ` keyword pair. -/
def constEnumKw : String := "const enum "

/-- Text constant: space followed by an opening brace. -/
def spaceBrace : String := " \x7b"

/-- Text constant: an opening brace. -/
def openBrace : String := "\x7b"

/-- Text constant: a closing brace. -/
def closeBrace : String := "\x7d"

/-- Text constant: the member separator of a sum type. -/
def pipeSep : String := "|"

/-- Text constant: a comma. -/
def commaSep : String := ","

/-- Text constant: a newline. -/
def nlSep : String := "\n"

/-- Text constant: the `readonly ` modifier. -/
def readonlyKw : String := "readonly "

/-- Text constant: the optional-field marker. -/
def optMark : String := "?"

/-- Text constant: the field name/type separator. -/
def colonSep : String := ":"

/-- Text constant: the field terminator. -/
def semiSep : String := ";"

/-- Text constant: opening of the Maybe wrapper. -/
def maybeOpen : String := "Maybe<"

/-- Text constant: opening angle bracket. -/
def ltAngle : String := "<"

/-- Text constant: closing angle bracket. -/
def gtAngle : String := ">"

/-- Text constant: the mutable array form. -/
def arrayOpen : String := "Array<"

/-- Text constant: the read-only array form. -/
def roArrayOpen : String := "ReadonlyArray<"

/-- Text constant: the fallback target for an unconfigured scalar. -/
def anyName : String := "any"

/-- Text constant: a double quote. -/
def dq : String := "\""

/-- Text constant: the pattern the plugin's enums-only branch filters
declarations with (`d.includes('export enum')` in the source). -/
def exportEnumPat : String := "export enum"

/-- Modelled from the spec: 4.1(a) — the resolved target name of a
scalar: the configured mapping when present, otherwise the configured
unknown-scalar default `any`. -/
def scalarTarget (c : TypeScriptPluginConfig) (n : String) : String :=
  match c.scalars.find? (fun p => decide (p.1 = n)) with
  | some p => p.2
  | none => anyName

/-- Whether a type reference is nullable (not wrapped in NonNull). -/
def TypeRef.isNullable : TypeRef → Bool
  | .nonNull _ => false
  | _ => true

mutual

/-- Concatenation of a list of strings (structural helper used by the
renderings). -/
def strConcat : List String → String
  | [] => ""
  | x :: r => x ++ strConcat r

/-- Joining of a list of strings with a separator (structural helper
used by the renderings). -/
def strJoinSep (sep : String) : List String → String
  | [] => ""
  | [x] => x
  | x :: y :: r => x ++ sep ++ strJoinSep sep (y :: r)

/-- Modelled from the spec: rendering of a type reference stripped of an
outer NonNull — List becomes the (read-only) generic array form over the
recursive rendering, a name is referenced by name. -/
def renderRefCore (imm : Bool) : TypeRef → String
  | .named n => n
  | .listOf r => (if imm then roArrayOpen else arrayOpen) ++ renderRef imm r ++ gtAngle
  | .nonNull r => renderRefCore imm r

/-- Modelled from the spec: rendering of a type reference — NonNull is
rendered bare, a nullable reference is wrapped in `Maybe<...>`. -/
def renderRef (imm : Bool) : TypeRef → String
  | .nonNull r => renderRefCore imm r
  | .named n => maybeOpen ++ n ++ gtAngle
  | .listOf r => maybeOpen ++ renderRefCore imm (.listOf r) ++ gtAngle

end

/-- Modelled from the spec: rendering of one record member — optional
`readonly` modifier, the field name, the optional marker for nullable
fields unless `avoidOptionals`, and the rendered field type. -/
def renderField (c : TypeScriptPluginConfig) (f : FieldDef) : String :=
  (if c.immutableTypes then readonlyKw else "") ++ f.name
    ++ (if f.type.isNullable && !c.avoidOptionals then optMark else "")
    ++ colonSep ++ renderRef c.immutableTypes f.type ++ semiSep

/-- The export modifier, suppressed by `noExport`. -/
def exportPfx (c : TypeScriptPluginConfig) : String :=
  if c.noExport then "" else exportKw

/-- Modelled from the spec: 4.3 — the declaration the Type Declaration
Emitter produces for one visited named type: scalars become aliases to
the resolved target, enums become `enum` declarations (or
string-literal-union aliases under `enumsAsTypes`, with a `const`
modifier under `constEnums`), Object/InputObject become structural
records, Interface/Union become sum-type aliases over member names. -/
def renderDecl (c : TypeScriptPluginConfig) (t : NamedType) : String :=
  match t.kind with
  | .scalar => exportPfx c ++ typeKw ++ t.name ++ eqSep ++ scalarTarget c t.name
  | .enum =>
      if c.enumsAsTypes then
        exportPfx c ++ typeKw ++ t.name ++ eqSep
          ++ strJoinSep pipeSep (t.enumValues.map (fun v => dq ++ v ++ dq))
      else
        exportPfx c ++ (if c.constEnums then constEnumKw else enumKw) ++ t.name
          ++ spaceBrace ++ strJoinSep commaSep t.enumValues ++ closeBrace
  | .object =>
      exportPfx c ++ typeKw ++ t.name ++ eqSep ++ openBrace
        ++ strConcat (t.fields.map (renderField c)) ++ closeBrace
  | .inputObject =>
      exportPfx c ++ typeKw ++ t.name ++ eqSep ++ openBrace
        ++ strConcat (t.fields.map (renderField c)) ++ closeBrace
  | .interface => exportPfx c ++ typeKw ++ t.name ++ eqSep ++ strJoinSep pipeSep t.members
  | .union => exportPfx c ++ typeKw ++ t.name ++ eqSep ++ strJoinSep pipeSep t.members

/-- Modelled from the spec: 4.2 — the result of
`visit(parse(printSchema(schema)), { leave: visitor })`: the Schema
Type-Graph Walker visits every named type of the schema's declared type
map exactly once, in declared order, excluding introspection meta-types
(which `printSchema` does not print), and emits one declaration per
type. -/
def visitorDefinitions (s : Schema) (c : TypeScriptPluginConfig) : List String :=
  s.types.map (renderDecl c)

/-- Modelled from the spec: the visitor's `scalarsDefinition` — the one
declaration mapping every scalar name (built-in and schema-declared) to
its resolved target. -/
def scalarsDefinition (s : Schema) (c : TypeScriptPluginConfig) : String :=
  exportPfx c ++ typeKw ++ "Scalars" ++ eqSep ++ openBrace
    ++ strConcat
      ((builtinScalars.map (fun t => t.name)
          ++ (s.types.filter (fun t => decide (t.kind = .scalar))).map (fun t => t.name)).map
        (fun n => n ++ colonSep ++ scalarTarget c n ++ semiSep))
    ++ closeBrace

/-- Text constant: head of the Maybe alias line. -/
def maybeAliasHead : String := "export type Maybe<T> = "

/-- Text constant: the default Maybe value. -/
def defaultMaybe : String := "T | null"

/-- Modelled from the spec: the visitor's `getMaybeValue` — the Maybe
alias line, with the configured `maybeValue` (default `T | null`). -/
def getMaybeValue (c : TypeScriptPluginConfig) : String :=
  maybeAliasHead ++ c.maybeValue.getD defaultMaybe

/-- Modelled from the spec: the visitor's `getEnumsImports` — the
prepended lines induced by external enum mappings in the configuration. -/
def getEnumsImports (c : TypeScriptPluginConfig) : List String := c.enumsImports

/-- Modelled from the spec: the visitor's `getScalarsImports` — the
prepended lines induced by external scalar mappings in the configuration. -/
def getScalarsImports (c : TypeScriptPluginConfig) : List String := c.scalarsImports

/-- A Boolean substring test on character lists: true when `pat` occurs
contiguously in the list.  This is the embedding of JavaScript's
`String.prototype.includes`, written with an explicit prefix check at
every suffix. -/
def isPrefixList : List Char → List Char → Bool
  | [], _ => true
  | _ :: _, [] => false
  | a :: as, b :: bs => if a = b then isPrefixList as bs else false

/-- Substring occurrence: `pat` is a prefix of some suffix. -/
def listContains (pat : List Char) : List Char → Bool
  | [] => isPrefixList pat []
  | c :: rest => isPrefixList pat (c :: rest) || listContains pat rest

/-- The embedding of `s.includes(pat)` of JavaScript. -/
def strIncludes (s pat : String) : Bool := listContains pat.data s.data

/-- The source's guard
`config.generateOnly && config.generateOnly.length > 0 && config.generateOnly[0] === 'enums'`:
the key is present, the list is non-empty, and its first element is the
string `enums`. -/
def enumsOnlyRequested (c : TypeScriptPluginConfig) : Bool :=
  match c.generateOnly with
  | none => false
  | some gs => decide (0 < gs.length) && decide (gs.head? = some "enums")

/-- The result record of one plugin invocation. -/
structure PluginOutput where
  prepend : List String
  content : String
deriving DecidableEq, Repr

/-- Filtering on non-membership can only shrink when the accumulator
grows. -/
theorem filter_absent_le (l acc : List String) (n : String) :
    (l.filter (fun x => decide (x ∉ acc ++ [n]))).length ≤
      (l.filter (fun x => decide (x ∉ acc))).length := by
  apply List.Sublist.length_le
  apply List.monotone_filter_right
  intro x hx
  simp only [decide_eq_true_eq] at hx ⊢
  intro hc; exact hx (by simp [hc])

/-- Filtering on non-membership strictly shrinks when a present element
is added to the accumulator. -/
theorem filter_absent_lt (l acc : List String) (n : String) (hl : n ∈ l) (hn : n ∉ acc) :
    (l.filter (fun x => decide (x ∉ acc ++ [n]))).length <
      (l.filter (fun x => decide (x ∉ acc))).length := by
  induction l with
  | nil => simp at hl
  | cons a l ih =>
    by_cases ha : a = n
    · subst ha
      rw [List.filter_cons_of_neg (by simp), List.filter_cons_of_pos (by simpa using hn)]
      have := filter_absent_le l acc a
      simp only [List.length_cons]
      omega
    · have hl' : n ∈ l := by
        rcases List.mem_cons.mp hl with h | h
        · exact absurd h.symm ha
        · exact h
      have heq : (decide (a ∉ acc ++ [n])) = (decide (a ∉ acc)) := by
        simp [List.mem_append, ha]
      rw [List.filter_cons, List.filter_cons, heq]
      have := ih hl'
      cases h : decide (a ∉ acc)
      · rw [if_neg (by simp), if_neg (by simp)]
        omega
      · rw [if_pos rfl, if_pos rfl]
        simp only [List.length_cons]
        omega

/-- Filtering on non-membership is unchanged by adding an element absent
from the list. -/
theorem filter_absent_eq (l acc : List String) (n : String) (hl : n ∉ l) :
    (l.filter (fun x => decide (x ∉ acc ++ [n]))) = (l.filter (fun x => decide (x ∉ acc))) := by
  apply List.filter_congr
  intro x hx
  have hxn : x ≠ n := fun h => hl (h ▸ hx)
  simp [List.mem_append, hxn]

/-- Collected introspection-dependency type names.  Translation of the
source's `collectTypes` recursion (`usedTypes.forEach(collectTypes)`
over the mutable `typesToInclude` accumulator), written — as the spec's
design note 9 prescribes — as an explicit worklist recursion threading
the accumulator: a worklist head already in the accumulator is skipped;
otherwise it is appended and, when it names an Object-variant type, the
named types of all its fields are prepended to the worklist (so the
visiting order is exactly the source's depth-first recursion order). -/
def collectTypes (s : Schema) : List String → List String → List String
  | [], acc => acc
  | n :: rest, acc =>
    if n ∈ acc then collectTypes s rest acc
    else
      match hlk : lookupType s n with
      | some t =>
          if t.kind = .object then
            collectTypes s (t.fields.map (fun f => f.type.baseName) ++ rest) (acc ++ [n])
          else
            collectTypes s rest (acc ++ [n])
      | none => collectTypes s rest (acc ++ [n])
termination_by wl acc =>
  ((((typeMap s).map (fun t => t.name)).filter (fun x => decide (x ∉ acc))).length, wl.length)
decreasing_by
  · apply Prod.Lex.right
    simp
  · apply Prod.Lex.left
    apply filter_absent_lt
    · have ht : lookupType s n = some t := hlk
      rw [lookupType] at ht
      have h1 : t.name = n := by simpa using List.find?_some ht
      have h2 : t ∈ typeMap s := List.mem_of_find?_eq_some ht
      exact h1 ▸ List.mem_map_of_mem (fun t => t.name) h2
    · assumption
  · apply Prod.Lex.left
    apply filter_absent_lt
    · have ht : lookupType s n = some t := hlk
      rw [lookupType] at ht
      have h1 : t.name = n := by simpa using List.find?_some ht
      have h2 : t ∈ typeMap s := List.mem_of_find?_eq_some ht
      exact h1 ▸ List.mem_map_of_mem (fun t => t.name) h2
    · assumption
  · have hnone : lookupType s n = none := hlk
    have hnl : n ∉ (typeMap s).map (fun t => t.name) := by
      intro hmem
      rw [lookupType, List.find?_eq_none] at hnone
      rw [List.mem_map] at hmem
      obtain ⟨t, ht, hname⟩ := hmem
      exact hnone t ht (by simp [hname])
    rw [filter_absent_eq _ _ _ hnl]
    apply Prod.Lex.right
    simp

/-- Translation of the document scan of `includeIntrospectionDefinitions`:
every field selection of every document is visited in order; when the
field's resolved named type is an introspection meta-type not yet
recorded, it is appended to `usedTypes`. -/
def usedTypes (docs : List Document) : List String :=
  docs.foldl
    (fun acc d =>
      d.fieldTypes.foldl
        (fun acc2 n =>
          if n ∈ introspectionTypeNames ∧ n ∉ acc2 then acc2 ++ [n] else acc2)
        acc)
    []

/-- The `typesToInclude` accumulator after
`usedTypes.forEach(type => collectTypes(type))`. -/
def typesToInclude (s : Schema) (docs : List Document) : List String :=
  collectTypes s (usedTypes docs) []

/-- Translation of `includeIntrospectionDefinitions`: collect the
introspection types used by the documents, close them under
`collectTypes`, and render the introspection schema restricted to the
collected set.  The final rendering step models (from the spec, 4.4
step 4) the `TsIntrospectionVisitor` run over
`parse(printIntrospectionSchema(schema))`: the printed introspection
schema contains exactly the introspection meta-types (built-in scalars
are never printed), and the visitor emits, through the normal emitter,
one declaration per printed type that is in `typesToInclude`. -/
def includeIntrospectionDefinitions (s : Schema) (docs : List Document)
    (c : TypeScriptPluginConfig) : List String :=
  (introspectionTypes.filter (fun t => decide (t.name ∈ typesToInclude s docs))).map
    (renderDecl c)

/-- Translation of the `plugin` entry point.  The enums-only branch
returns no prepend lines and the visitor declarations filtered to those
containing `export enum`; the source wraps that filtered array in a
singleton array literal before calling `join('\n')`, and
`Array.prototype.join` stringifies the single array element, which joins
the declarations with the default `,` separator — the embedding
reproduces that with `String.intercalate ","`.  The normal branch
prepends the enum imports, scalar imports and the Maybe alias, and joins
the scalars declaration, the visitor declarations and the introspection
declarations with newlines. -/
def plugin (schema : Schema) (documents : List Document)
    (config : TypeScriptPluginConfig) : PluginOutput :=
  let maybeValue := getMaybeValue config
  let visitorResult := visitorDefinitions schema config
  let introspectionDefinitions := includeIntrospectionDefinitions schema documents config
  let scalars := scalarsDefinition schema config
  if enumsOnlyRequested config then
    { prepend := [],
      content :=
        String.intercalate commaSep
          (visitorResult.filter (fun d => strIncludes d exportEnumPat)) }
  else
    { prepend := getEnumsImports config ++ getScalarsImports config ++ [maybeValue],
      content :=
        String.intercalate nlSep (scalars :: (visitorResult ++ introspectionDefinitions)) }

/-- Changing only `generateOnly` does not change a rendered field. -/
theorem renderField_genOnly (c : TypeScriptPluginConfig) (g : Option (List String)) :
    renderField { c with generateOnly := g } = renderField c := by
  funext f
  simp [renderField]

/-- Changing only `generateOnly` does not change a rendered declaration. -/
theorem renderDecl_genOnly (c : TypeScriptPluginConfig) (g : Option (List String))
    (t : NamedType) : renderDecl { c with generateOnly := g } t = renderDecl c t := by
  cases hk : t.kind <;>
    simp [renderDecl, hk, exportPfx, scalarTarget, renderField_genOnly]

/-- Changing only `generateOnly` does not change the visitor result. -/
theorem visitorDefinitions_genOnly (s : Schema) (c : TypeScriptPluginConfig)
    (g : Option (List String)) :
    visitorDefinitions s { c with generateOnly := g } = visitorDefinitions s c := by
  simp only [visitorDefinitions]
  exact List.map_congr_left (fun t _ => renderDecl_genOnly c g t)

/-- Changing only `generateOnly` does not change the scalars declaration. -/
theorem scalarsDefinition_genOnly (s : Schema) (c : TypeScriptPluginConfig)
    (g : Option (List String)) :
    scalarsDefinition s { c with generateOnly := g } = scalarsDefinition s c := by
  simp [scalarsDefinition, exportPfx, scalarTarget]

/-- Changing only `generateOnly` does not change the introspection
declarations. -/
theorem includeIntrospectionDefinitions_genOnly (s : Schema) (docs : List Document)
    (c : TypeScriptPluginConfig) (g : Option (List String)) :
    includeIntrospectionDefinitions s docs { c with generateOnly := g } =
      includeIntrospectionDefinitions s docs c := by
  simp only [includeIntrospectionDefinitions]
  exact List.map_congr_left (fun t _ => renderDecl_genOnly c g t)

/-- Sample object type used by concrete instances. -/
def sampleUser : NamedType :=
  { name := "User", kind := .object,
    fields := [⟨"id", nnRef "Int"⟩, ⟨"name", .named "String"⟩] }

/-- Sample enum type used by concrete instances. -/
def sampleColor : NamedType :=
  { name := "Color", kind := .enum, enumValues := ["RED", "GREEN"] }

/-- Second sample enum type used by concrete instances. -/
def sampleSize : NamedType :=
  { name := "Size", kind := .enum, enumValues := ["S", "M"] }

/-- Sample schema with an object type and two enums. -/
def sampleSchema : Schema := ⟨[sampleUser, sampleColor, sampleSize]⟩

/-- Sample schema with only the two enums. -/
def twoEnumSchema : Schema := ⟨[sampleColor, sampleSize]⟩

/-- The all-defaults configuration (every option unset). -/
def defaultConfig : TypeScriptPluginConfig := {}

/-- The configuration restricting output to enums. -/
def enumsOnlyConfig : TypeScriptPluginConfig :=
  { defaultConfig with generateOnly := some ["enums"] }

/-- A configuration whose `generateOnly` holds an invalid value. -/
def badGenerateOnlyConfig : TypeScriptPluginConfig :=
  { defaultConfig with generateOnly := some ["types"] }

/-- C8: plugin is deterministic — for any fixed (schema, documents,
config) triple, any two invocations return identical results: the same
`prepend` line list and a byte-identical `content` string.  The
embedding of the generation pass is a pure function of the triple, so
two results of the same invocation coincide componentwise. -/
theorem plugin_deterministic (s : Schema) (d : List Document) (c : TypeScriptPluginConfig)
    (r1 r2 : PluginOutput) (h1 : r1 = plugin s d c) (h2 : r2 = plugin s d c) :
    r1.prepend = r2.prepend ∧ r1.content = r2.content := by
  subst h1
  subst h2
  exact ⟨rfl, rfl⟩

/-- Witness for C8 at a concrete triple. -/
theorem plugin_deterministic_witness :
    (plugin sampleSchema [] defaultConfig).prepend = (plugin sampleSchema [] defaultConfig).prepend ∧
    (plugin sampleSchema [] defaultConfig).content = (plugin sampleSchema [] defaultConfig).content :=
  plugin_deterministic sampleSchema [] defaultConfig _ _ rfl rfl

/-- C9: whenever `generateOnly` is `['enums']`, the `prepend` list
returned by plugin is empty — the enum imports, scalar imports and the
Maybe alias of the normal branch are all omitted. -/
theorem plugin_enums_only_prepend_empty (s : Schema) (d : List Document)
    (c : TypeScriptPluginConfig) (h : c.generateOnly = some ["enums"]) :
    (plugin s d c).prepend = [] := by
  have hreq : enumsOnlyRequested c = true := by
    simp [enumsOnlyRequested, h]
  simp [plugin, hreq]

/-- Witness for C9 at a concrete input: the sample schema with the
enums-only configuration. -/
theorem plugin_enums_only_prepend_empty_witness :
    enumsOnlyConfig.generateOnly = some ["enums"] ∧
    (plugin sampleSchema [] enumsOnlyConfig).prepend = [] :=
  ⟨rfl, plugin_enums_only_prepend_empty sampleSchema [] enumsOnlyConfig rfl⟩

/-- C10: when `generateOnly` is present but the empty list, plugin
behaves exactly as if `generateOnly` were unset: the guard
`config.generateOnly.length > 0` fails and the full output is produced. -/
theorem plugin_empty_generateOnly (s : Schema) (d : List Document)
    (c : TypeScriptPluginConfig) :
    plugin s d { c with generateOnly := some [] } =
      plugin s d { c with generateOnly := none } := by
  have h1 : enumsOnlyRequested { c with generateOnly := some [] } = false := by
    simp [enumsOnlyRequested]
  have h2 : enumsOnlyRequested { c with generateOnly := none } = false := by
    simp [enumsOnlyRequested]
  simp only [plugin, h1, h2, Bool.false_eq_true, if_false,
    visitorDefinitions_genOnly, scalarsDefinition_genOnly,
    includeIntrospectionDefinitions_genOnly, getMaybeValue, getEnumsImports,
    getScalarsImports]

/-- C3 (amended): an invalid `generateOnly` value (non-empty, first
element not `enums`) is silently ignored — plugin behaves exactly as if
`generateOnly` were unset and returns the full output; no error is
raised. -/
theorem plugin_invalid_generateOnly_falls_back (s : Schema) (d : List Document)
    (c : TypeScriptPluginConfig) (gs : List String) (hg : c.generateOnly = some gs)
    (hne : gs ≠ []) (hhead : gs.head? ≠ some "enums") :
    plugin s d c = plugin s d { c with generateOnly := none } := by
  have h1 : enumsOnlyRequested c = false := by
    simp [enumsOnlyRequested, hg, hhead]
  have h2 : enumsOnlyRequested { c with generateOnly := none } = false := by
    simp [enumsOnlyRequested]
  have hc : c = { c with generateOnly := some gs } := by
    cases c
    simp_all
  rw [hc]
  simp only [plugin, h1, h2, Bool.false_eq_true, if_false,
    visitorDefinitions_genOnly, scalarsDefinition_genOnly,
    includeIntrospectionDefinitions_genOnly, getMaybeValue, getEnumsImports,
    getScalarsImports]
  rw [← hc]
  simp only [h1, Bool.false_eq_true, if_false]

/-- Witness for C3 (amended) at a concrete input. -/
theorem plugin_invalid_generateOnly_falls_back_witness :
    (badGenerateOnlyConfig.generateOnly = some ["types"] ∧ ["types"] ≠ ([] : List String) ∧
      ["types"].head? ≠ some "enums") ∧
    plugin sampleSchema [] badGenerateOnlyConfig =
      plugin sampleSchema [] { badGenerateOnlyConfig with generateOnly := none } :=
  ⟨⟨rfl, by decide, by decide⟩,
    plugin_invalid_generateOnly_falls_back sampleSchema [] badGenerateOnlyConfig
      ["types"] rfl (by decide) (by decide)⟩

/-- Counterexample for C3 as stated: with the invalid `generateOnly`
value `['types']` the plugin does not fail and does not return an empty
result — it silently produces the full output of the unset
configuration, including a non-empty `prepend` (the Maybe alias line). -/
theorem plugin_invalid_generateOnly_counterexample :
    plugin sampleSchema [] badGenerateOnlyConfig = plugin sampleSchema [] defaultConfig ∧
    (plugin sampleSchema [] badGenerateOnlyConfig).prepend = [getMaybeValue defaultConfig] := by
  constructor
  · have h1 : enumsOnlyRequested { defaultConfig with generateOnly := some ["types"] } = false := by
      decide
    have h2 : enumsOnlyRequested defaultConfig = false := by decide
    unfold badGenerateOnlyConfig
    simp only [plugin, h1, h2, Bool.false_eq_true, if_false,
      visitorDefinitions_genOnly, scalarsDefinition_genOnly,
      includeIntrospectionDefinitions_genOnly, getMaybeValue, getEnumsImports,
      getScalarsImports]
  · rfl

/-- C7 (failing input): in the enums-only branch the source evaluates
`[filtered].join('\n')` — a singleton array literal wrapping the
filtered array — so `join` stringifies the inner array, which joins the
enum declarations with the default `,` separator instead of newlines.
On a schema with two enums the two declarations are comma-joined, not
newline-joined as the claim (and the spec) state. -/
theorem plugin_enums_only_comma_joined :
    (plugin twoEnumSchema [] enumsOnlyConfig).content =
      "export enum Color \x7bRED,GREEN\x7d,export enum Size \x7bS,M\x7d" ∧
    (plugin twoEnumSchema [] enumsOnlyConfig).content ≠
      "export enum Color \x7bRED,GREEN\x7d\nexport enum Size \x7bS,M\x7d" := by
  decide

/-- C1: in every configuration that does not restrict output to enums,
the content is the newline-join of the scalars declaration, one
declaration per named type of the schema's type map (every variant, in
declared order — introspection meta-types are not part of the walked
type map and are appended separately by
`includeIntrospectionDefinitions`), and the introspection declarations;
the walker output has exactly one declaration per type, at the type's
own position. -/
theorem plugin_each_type_one_decl (s : Schema) (d : List Document)
    (c : TypeScriptPluginConfig) (h : enumsOnlyRequested c = false) :
    (plugin s d c).content =
      String.intercalate nlSep
        (scalarsDefinition s c ::
          (visitorDefinitions s c ++ includeIntrospectionDefinitions s d c)) ∧
    (visitorDefinitions s c).length = s.types.length ∧
    ∀ i : Nat, (visitorDefinitions s c)[i]? = (s.types[i]?).map (renderDecl c) := by
  refine ⟨?_, ?_, ?_⟩
  · simp [plugin, h]
  · simp [visitorDefinitions]
  · intro i
    simp [visitorDefinitions]

/-- Witness for C1 at a concrete input. -/
theorem plugin_each_type_one_decl_witness :
    enumsOnlyRequested defaultConfig = false ∧
    ((plugin sampleSchema [] defaultConfig).content =
      String.intercalate nlSep
        (scalarsDefinition sampleSchema defaultConfig ::
          (visitorDefinitions sampleSchema defaultConfig
            ++ includeIntrospectionDefinitions sampleSchema [] defaultConfig)) ∧
    (visitorDefinitions sampleSchema defaultConfig).length = sampleSchema.types.length ∧
    ∀ i : Nat, (visitorDefinitions sampleSchema defaultConfig)[i]? =
      (sampleSchema.types[i]?).map (renderDecl defaultConfig)) :=
  ⟨by decide, plugin_each_type_one_decl sampleSchema [] defaultConfig (by decide)⟩

/-- A string without space characters (GraphQL names and rendered type
references are space-free). -/
def spaceFree (x : String) : Prop := ' ' ∉ x.data

instance (x : String) : Decidable (spaceFree x) :=
  inferInstanceAs (Decidable (' ' ∉ x.data))

/-- A prefix check holds exactly when the checked list extends the
pattern. -/
theorem isPrefixList_iff (p b : List Char) :
    isPrefixList p b = true ↔ ∃ r, b = p ++ r := by
  induction p generalizing b with
  | nil => simp [isPrefixList]
  | cons a as ih =>
    cases b with
    | nil =>
      simp [isPrefixList]
    | cons c bs =>
      by_cases h : a = c
      · subst h
        simp [isPrefixList, ih]
      · simp only [isPrefixList, if_neg h]
        constructor
        · intro hfalse
          cases hfalse
        · rintro ⟨r, hr⟩
          rw [List.cons_append] at hr
          exact absurd (List.cons.injEq .. ▸ hr).1 (fun he => h he.symm)

/-- Substring occurrence characterized as a decomposition. -/
theorem listContains_iff (p cs : List Char) :
    listContains p cs = true ↔ ∃ l r, cs = l ++ p ++ r := by
  induction cs with
  | nil =>
    rw [listContains, isPrefixList_iff]
    constructor
    · rintro ⟨r, hr⟩
      exact ⟨[], r, by simpa using hr⟩
    · rintro ⟨l, r, hr⟩
      have hl : l = [] := by
        rcases List.append_eq_nil.mp (List.append_assoc l p r ▸ hr.symm) with ⟨h1, _⟩
        exact h1
      exact ⟨r, by simpa [hl] using hr⟩
  | cons c cs ih =>
    rw [listContains, Bool.or_eq_true, isPrefixList_iff, ih]
    constructor
    · rintro (⟨r, hr⟩ | ⟨l, r, hr⟩)
      · exact ⟨[], r, by simpa using hr⟩
      · exact ⟨c :: l, r, by simp [hr]⟩
    · rintro ⟨l, r, hr⟩
      cases l with
      | nil => exact Or.inl ⟨r, by simpa using hr⟩
      | cons x l =>
        right
        refine ⟨l, r, ?_⟩
        have := (List.cons.injEq .. ▸ (by simpa using hr : c :: cs = x :: (l ++ p ++ r))).2
        exact this

/-- The three-character pattern `t e` contained in `export enum`. -/
def tsePat : List Char := ['t', ' ', 'e']

/-- A containment of `export enum` yields a containment of `t e`. -/
theorem contains_export_enum_tse (cs : List Char)
    (h : listContains exportEnumPat.data cs = true) :
    listContains tsePat cs = true := by
  obtain ⟨l, r, hr⟩ := (listContains_iff _ _).mp h
  apply (listContains_iff tsePat cs).mpr
  have hsplit : exportEnumPat.data = ("expor".data ++ tsePat) ++ "num".data := by decide
  refine ⟨l ++ "expor".data, "num".data ++ r, ?_⟩
  rw [hr, hsplit]
  simp [List.append_assoc]

/-- The scanning automaton for the pattern `t e`: state 1 after a `t`,
state 2 after `t `, state 3 (absorbing) once `t e` has been read. -/
def tseStep (st : Nat) (c : Char) : Nat :=
  if st = 3 then 3
  else if st = 2 then (if c = 'e' then 3 else if c = 't' then 1 else 0)
  else if c = 't' then 1
  else if st = 1 ∧ c = ' ' then 2
  else 0

/-- Running the automaton over a character list. -/
def tseRun (cs : List Char) (st : Nat) : Nat := cs.foldl tseStep st

/-- Running distributes over append. -/
theorem tseRun_append (a b : List Char) (st : Nat) :
    tseRun (a ++ b) st = tseRun b (tseRun a st) := by
  simp [tseRun, List.foldl_append]

/-- State 3 is absorbing. -/
theorem tseRun_absorb (cs : List Char) : tseRun cs 3 = 3 := by
  induction cs with
  | nil => rfl
  | cons c cs ih =>
    have hstep : tseStep 3 c = 3 := by simp [tseStep]
    calc tseRun (c :: cs) 3 = tseRun cs (tseStep 3 c) := rfl
    _ = tseRun cs 3 := by rw [hstep]
    _ = 3 := ih

/-- Reading a `t` from any non-absorbing state reaches state 1. -/
theorem tseStep_t (st : Nat) (h : st ≠ 3) : tseStep st 't' = 1 := by
  by_cases h2 : st = 2 <;> simp [tseStep, h, h2]

/-- A list containing `t e` drives the automaton into the absorbing
state from any start state. -/
theorem contains_tse_run3 (cs : List Char) (h : listContains tsePat cs = true)
    (st : Nat) : tseRun cs st = 3 := by
  obtain ⟨l, r, hr⟩ := (listContains_iff _ _).mp h
  subst hr
  rw [List.append_assoc, tseRun_append]
  by_cases h3 : tseRun l st = 3
  · rw [h3, tseRun_absorb]
  · have step1 : tseStep (tseRun l st) 't' = 1 := tseStep_t _ h3
    have : tseRun (tsePat ++ r) (tseRun l st) = tseRun r 3 := by
      show tseRun ('t' :: ' ' :: 'e' :: r) (tseRun l st) = tseRun r 3
      have e1 : tseRun ('t' :: ' ' :: 'e' :: r) (tseRun l st)
          = tseRun r (tseStep (tseStep (tseStep (tseRun l st) 't') ' ') 'e') := rfl
      rw [e1, step1]
      have e2 : tseStep 1 ' ' = 2 := by decide
      have e3 : tseStep 2 'e' = 3 := by decide
      rw [e2, e3]
    rw [this, tseRun_absorb]

/-- A string all of whose segments keep the automaton in states 0/1; the
pattern `t e` (hence `export enum`) cannot occur in such a string. -/
def Safe01 (x : String) : Prop :=
    ∀ st : Nat, (st = 0 ∨ st = 1) → (tseRun x.data st = 0 ∨ tseRun x.data st = 1)

/-- Concatenation preserves `Safe01`. -/
theorem safe01_append (a b : String) (ha : Safe01 a) (hb : Safe01 b) :
    Safe01 (a ++ b) := by
  intro st hst
  rw [String.data_append, tseRun_append]
  exact hb _ (ha st hst)

/-- A step on a non-space character keeps states 0/1 within 0/1. -/
theorem tseStep_nospace (st : Nat) (c : Char) (hc : c ≠ ' ') (hst : st = 0 ∨ st = 1) :
    tseStep st c = 0 ∨ tseStep st c = 1 := by
  rcases hst with rfl | rfl
  · by_cases ht : c = 't' <;> simp [tseStep, ht]
  · by_cases ht : c = 't' <;> simp [tseStep, ht, hc]

/-- Running a space-free character list from states 0/1 stays in 0/1. -/
theorem tseRun_nospace_list (cs : List Char) (h : ' ' ∉ cs) :
    ∀ st : Nat, (st = 0 ∨ st = 1) → (tseRun cs st = 0 ∨ tseRun cs st = 1) := by
  induction cs with
  | nil => intro st hst; exact hst
  | cons c cs ih =>
    intro st hst
    have hc : c ≠ ' ' := fun he => h (he ▸ List.mem_cons_self c cs)
    have hcs : ' ' ∉ cs := fun hm => h (List.mem_cons_of_mem c hm)
    exact ih hcs (tseStep st c) (tseStep_nospace st c hc hst)

/-- A space-free string is `Safe01`. -/
theorem safe01_of_spaceFree (x : String) (h : spaceFree x) : Safe01 x :=
  fun st hst => tseRun_nospace_list x.data h st hst

/-- Build `Safe01` from its two instances. -/
theorem safe01_of_two (x : String) (h0 : tseRun x.data 0 = 0 ∨ tseRun x.data 0 = 1)
    (h1 : tseRun x.data 1 = 0 ∨ tseRun x.data 1 = 1) : Safe01 x := by
  intro st hst
  rcases hst with rfl | rfl
  · exact h0
  · exact h1

/-- The empty string is `Safe01`. -/
theorem safe01_empty : Safe01 "" := safe01_of_two _ (by decide) (by decide)

/-- Space-free strings concatenate to space-free strings. -/
theorem spaceFree_append (a b : String) (ha : spaceFree a) (hb : spaceFree b) :
    spaceFree (a ++ b) := by
  rw [spaceFree, String.data_append]
  intro h
  rcases List.mem_append.mp h with h | h
  · exact ha h
  · exact hb h

/-- A separator-join of space-free strings is space-free. -/
theorem spaceFree_strJoinSep (sep : String) (hsep : spaceFree sep) (l : List String)
    (hl : ∀ x ∈ l, spaceFree x) : spaceFree (strJoinSep sep l) := by
  induction l with
  | nil => exact show spaceFree "" by decide
  | cons x r ih =>
    cases r with
    | nil => simpa [strJoinSep] using hl x (List.mem_cons_self x [])
    | cons y r2 =>
      rw [strJoinSep]
      apply spaceFree_append
      · apply spaceFree_append
        · exact hl x (List.mem_cons_self x (y :: r2))
        · exact hsep
      · exact ih (fun z hz => hl z (List.mem_cons_of_mem x hz))

/-- A rendered type reference over a space-free base name is space-free
(both the bare and the Maybe-wrapped rendering). -/
theorem renderRef_spaceFree (imm : Bool) (r : TypeRef) (h : spaceFree r.baseName) :
    spaceFree (renderRefCore imm r) ∧ spaceFree (renderRef imm r) := by
  induction r with
  | named n =>
    have hn : spaceFree n := by simpa [TypeRef.baseName] using h
    refine ⟨by simpa [renderRefCore] using hn, ?_⟩
    rw [renderRef]
    exact spaceFree_append _ _ (spaceFree_append _ _ (by decide) hn) (by decide)
  | listOf r ih =>
    have hbase : spaceFree r.baseName := by simpa [TypeRef.baseName] using h
    obtain ⟨hcore, href⟩ := ih hbase
    have hlist : spaceFree (renderRefCore imm (.listOf r)) := by
      rw [renderRefCore]
      apply spaceFree_append _ _ (spaceFree_append _ _ ?_ href) (by decide)
      cases imm <;> simp <;> decide
    refine ⟨hlist, ?_⟩
    rw [renderRef]
    exact spaceFree_append _ _ (spaceFree_append _ _ (by decide) hlist) (by decide)
  | nonNull r ih =>
    have hbase : spaceFree r.baseName := by simpa [TypeRef.baseName] using h
    obtain ⟨hcore, _⟩ := ih hbase
    exact ⟨by simpa [renderRefCore] using hcore, by simpa [renderRef] using hcore⟩

/-- A rendered record field is `Safe01`: the only space it can contain
is the one of the `readonly ` modifier, which resets the automaton. -/
theorem renderField_safe01 (c : TypeScriptPluginConfig) (f : FieldDef)
    (hn : spaceFree f.name) (hb : spaceFree f.type.baseName) :
    Safe01 (renderField c f) := by
  rw [renderField]
  have hA : Safe01 (if c.immutableTypes then readonlyKw else "") := by
    split
    · exact safe01_of_two _ (by decide) (by decide)
    · exact safe01_empty
  have hB : Safe01 f.name := safe01_of_spaceFree _ hn
  have hC : Safe01 (if f.type.isNullable && !c.avoidOptionals then optMark else "") := by
    split
    · exact safe01_of_spaceFree _ (by decide)
    · exact safe01_empty
  have hD : Safe01 colonSep := safe01_of_spaceFree _ (by decide)
  have hE : Safe01 (renderRef c.immutableTypes f.type) :=
    safe01_of_spaceFree _ (renderRef_spaceFree c.immutableTypes f.type hb).2
  have hF : Safe01 semiSep := safe01_of_spaceFree _ (by decide)
  exact safe01_append _ _ (safe01_append _ _ (safe01_append _ _
    (safe01_append _ _ (safe01_append _ _ hA hB) hC) hD) hE) hF

/-- A concatenation of `Safe01` strings is `Safe01`. -/
theorem safe01_strConcat (l : List String) (hl : ∀ x ∈ l, Safe01 x) :
    Safe01 (strConcat l) := by
  induction l with
  | nil => exact safe01_empty
  | cons x r ih =>
    rw [strConcat]
    exact safe01_append _ _ (hl x (List.mem_cons_self x r))
      (ih (fun z hz => hl z (List.mem_cons_of_mem x hz)))

/-- The alias head `export type ` (or `type ` under `noExport`) is
`Safe01`. -/
theorem safe01_alias_head (c : TypeScriptPluginConfig) :
    Safe01 (exportPfx c ++ typeKw) := by
  rw [exportPfx]
  split
  · exact safe01_of_two _ (by decide) (by decide)
  · exact safe01_of_two _ (by decide) (by decide)

/-- The resolved scalar target of a well-formed configuration is
space-free. -/
theorem scalarTarget_spaceFree (c : TypeScriptPluginConfig) (n : String)
    (hsc : ∀ p ∈ c.scalars, spaceFree p.2) : spaceFree (scalarTarget c n) := by
  rw [scalarTarget]
  cases hfind : c.scalars.find? (fun p => decide (p.1 = n)) with
  | none => exact show spaceFree anyName by decide
  | some p => exact hsc p (List.mem_of_find?_eq_some hfind)

/-- The rendering of a non-enum named type is `Safe01`: the automaton
looking for `t e` never reaches its accepting state. -/
theorem renderDecl_nonEnum_safe01 (c : TypeScriptPluginConfig) (t : NamedType)
    (hkind : t.kind ≠ TypeKind.enum) (hname : spaceFree t.name)
    (hf : ∀ f ∈ t.fields, spaceFree f.name ∧ spaceFree f.type.baseName)
    (hm : ∀ m ∈ t.members, spaceFree m)
    (hsc : ∀ p ∈ c.scalars, spaceFree p.2) :
    Safe01 (renderDecl c t) := by
  have hhead := safe01_alias_head c
  have hname01 : Safe01 t.name := safe01_of_spaceFree _ hname
  have heq : Safe01 eqSep := safe01_of_two _ (by decide) (by decide)
  have hopen : Safe01 openBrace := safe01_of_spaceFree _ (by decide)
  have hclose : Safe01 closeBrace := safe01_of_spaceFree _ (by decide)
  have hfields : Safe01 (strConcat (t.fields.map (renderField c))) := by
    apply safe01_strConcat
    intro x hx
    rw [List.mem_map] at hx
    obtain ⟨f, hfmem, hfx⟩ := hx
    obtain ⟨h1, h2⟩ := hf f hfmem
    exact hfx ▸ renderField_safe01 c f h1 h2
  have hmembers : Safe01 (strJoinSep pipeSep t.members) :=
    safe01_of_spaceFree _ (spaceFree_strJoinSep pipeSep (by decide) t.members hm)
  cases hk : t.kind with
  | enum => exact absurd hk hkind
  | scalar =>
    simp only [renderDecl, hk]
    have htarget : Safe01 (scalarTarget c t.name) :=
      safe01_of_spaceFree _ (scalarTarget_spaceFree c t.name hsc)
    exact safe01_append _ _ (safe01_append _ _ (safe01_append _ _ hhead hname01) heq) htarget
  | object =>
    simp only [renderDecl, hk]
    exact safe01_append _ _ (safe01_append _ _ (safe01_append _ _
      (safe01_append _ _ (safe01_append _ _ hhead hname01) heq) hopen) hfields) hclose
  | inputObject =>
    simp only [renderDecl, hk]
    exact safe01_append _ _ (safe01_append _ _ (safe01_append _ _
      (safe01_append _ _ (safe01_append _ _ hhead hname01) heq) hopen) hfields) hclose
  | interface =>
    simp only [renderDecl, hk]
    exact safe01_append _ _ (safe01_append _ _ (safe01_append _ _ hhead hname01) heq) hmembers
  | union =>
    simp only [renderDecl, hk]
    exact safe01_append _ _ (safe01_append _ _ (safe01_append _ _ hhead hname01) heq) hmembers

/-- A `Safe01` string does not contain `export enum`. -/
theorem strIncludes_exportEnum_false (x : String) (h : Safe01 x) :
    strIncludes x exportEnumPat = false := by
  cases hb : strIncludes x exportEnumPat with
  | false => rfl
  | true =>
    exfalso
    have h2 := contains_export_enum_tse x.data (by simpa [strIncludes] using hb)
    have h3 := contains_tse_run3 x.data h2 0
    rcases h 0 (Or.inl rfl) with h4 | h4 <;> omega

/-- Well-formed schema names: all type names, field names, field base
type names and member names are space-free (as GraphQL names are). -/
def schemaNamesOk (s : Schema) : Prop :=
  ∀ t ∈ s.types,
    spaceFree t.name ∧
    (∀ f ∈ t.fields, spaceFree f.name ∧ spaceFree f.type.baseName) ∧
    (∀ m ∈ t.members, spaceFree m)

instance (s : Schema) : Decidable (schemaNamesOk s) :=
  inferInstanceAs
    (Decidable
      (∀ t ∈ s.types,
        spaceFree t.name ∧
        (∀ f ∈ t.fields, spaceFree f.name ∧ spaceFree f.type.baseName) ∧
        (∀ m ∈ t.members, spaceFree m)))

/-- C2: when `generateOnly` requests enums only, the returned content is
exactly the join of the visitor declarations that pass the
`export enum` filter, and every declaration passing that filter is the
rendering of an Enum-variant type of the schema — no scalar alias,
object/input-object record or interface/union alias passes, and the
scalars declaration and the introspection declarations never enter this
branch at all. -/
theorem plugin_enums_only_content_only_enum_decls (s : Schema) (d : List Document)
    (c : TypeScriptPluginConfig) (hs : schemaNamesOk s)
    (hsc : ∀ p ∈ c.scalars, spaceFree p.2)
    (hreq : enumsOnlyRequested c = true) :
    (plugin s d c).content =
      String.intercalate commaSep
        ((visitorDefinitions s c).filter (fun x => strIncludes x exportEnumPat)) ∧
    ∀ x ∈ (visitorDefinitions s c).filter (fun x => strIncludes x exportEnumPat),
      ∃ t ∈ s.types, t.kind = TypeKind.enum ∧ x = renderDecl c t := by
  constructor
  · simp [plugin, hreq]
  · intro x hx
    rw [List.mem_filter] at hx
    obtain ⟨hmem, hfilt⟩ := hx
    rw [visitorDefinitions, List.mem_map] at hmem
    obtain ⟨t, ht, hxt⟩ := hmem
    refine ⟨t, ht, ?_, hxt.symm⟩
    by_contra hne
    obtain ⟨h1, h2, h3⟩ := hs t ht
    have hsafe := renderDecl_nonEnum_safe01 c t hne h1 h2 h3 hsc
    have hfalse := strIncludes_exportEnum_false _ hsafe
    rw [hxt] at hfalse
    rw [hfalse] at hfilt
    cases hfilt

/-- Witness for C2: at the sample schema and the enums-only
configuration, the Color declaration passes the filter and is indeed the
rendering of an Enum-variant type. -/
theorem plugin_enums_only_content_only_enum_decls_witness :
    (schemaNamesOk sampleSchema ∧ (∀ p ∈ enumsOnlyConfig.scalars, spaceFree p.2) ∧
      enumsOnlyRequested enumsOnlyConfig = true) ∧
    ∃ t ∈ sampleSchema.types, t.kind = TypeKind.enum ∧
      renderDecl enumsOnlyConfig sampleColor = renderDecl enumsOnlyConfig t :=
  ⟨⟨by decide, by decide, by decide⟩,
    (plugin_enums_only_content_only_enum_decls sampleSchema [] enumsOnlyConfig
        (by decide) (by decide) (by decide)).2
      (renderDecl enumsOnlyConfig sampleColor)
      (by
        rw [List.mem_filter]
        constructor
        · rw [visitorDefinitions]
          exact List.mem_map_of_mem (renderDecl enumsOnlyConfig) (by decide)
        · decide)⟩

/-- The inner document fold leaves the accumulator unchanged when no
visited field type is an introspection meta-type. -/
theorem usedTypes_inner_nil (l : List String) (acc : List String)
    (h : ∀ n ∈ l, n ∉ introspectionTypeNames) :
    l.foldl
      (fun acc2 n =>
        if n ∈ introspectionTypeNames ∧ n ∉ acc2 then acc2 ++ [n] else acc2)
      acc = acc := by
  induction l generalizing acc with
  | nil => rfl
  | cons n rest ih =>
    rw [List.foldl_cons]
    have hn : n ∉ introspectionTypeNames := h n (List.mem_cons_self n rest)
    rw [if_neg (by simp [hn])]
    exact ih acc (fun m hm => h m (List.mem_cons_of_mem n hm))

/-- No document referencing introspection meta-types means no used
types are recorded. -/
theorem usedTypes_nil (docs : List Document)
    (h : ∀ d ∈ docs, ∀ n ∈ d.fieldTypes, n ∉ introspectionTypeNames) :
    usedTypes docs = [] := by
  rw [usedTypes]
  have hgen : ∀ (ds : List Document), (∀ d ∈ ds, ∀ n ∈ d.fieldTypes, n ∉ introspectionTypeNames) →
      ds.foldl
        (fun acc d =>
          d.fieldTypes.foldl
            (fun acc2 n =>
              if n ∈ introspectionTypeNames ∧ n ∉ acc2 then acc2 ++ [n] else acc2)
            acc)
        [] = [] := by
    intro ds hds
    induction ds with
    | nil => rfl
    | cons d rest ih =>
      rw [List.foldl_cons,
        usedTypes_inner_nil d.fieldTypes [] (hds d (List.mem_cons_self d rest))]
      exact ih (fun d2 hd2 => hds d2 (List.mem_cons_of_mem d hd2))
  exact hgen docs h

/-- C5: if no provided operation document references any introspection
meta-type in any field selection, `includeIntrospectionDefinitions`
returns an empty declaration list. -/
theorem includeIntrospectionDefinitions_empty (s : Schema) (docs : List Document)
    (c : TypeScriptPluginConfig)
    (h : ∀ d ∈ docs, ∀ n ∈ d.fieldTypes, n ∉ introspectionTypeNames) :
    includeIntrospectionDefinitions s docs c = [] := by
  have h1 : usedTypes docs = [] := usedTypes_nil docs h
  have h2 : typesToInclude s docs = [] := by
    rw [typesToInclude, h1, collectTypes]
  rw [includeIntrospectionDefinitions, h2]
  simp

/-- Witness for C5: a document referencing only user types yields no
introspection declarations. -/
theorem includeIntrospectionDefinitions_empty_witness :
    (∀ d ∈ [Document.mk ["Query", "User", "String"]],
      ∀ n ∈ d.fieldTypes, n ∉ introspectionTypeNames) ∧
    includeIntrospectionDefinitions sampleSchema [Document.mk ["Query", "User", "String"]]
      defaultConfig = [] :=
  ⟨by decide,
    includeIntrospectionDefinitions_empty sampleSchema _ defaultConfig (by decide)⟩

/-- The accumulator invariant of `collectTypes`: starting from a
duplicate-free accumulator, the result is duplicate-free (a worklist
head already accumulated is skipped; a new head is appended exactly
once). -/
theorem collectTypes_nodup (s : Schema) (wl acc : List String) (h : acc.Nodup) :
    (collectTypes s wl acc).Nodup := by
  induction wl, acc using collectTypes.induct s with
  | case1 acc => simpa [collectTypes] using h
  | case2 n rest acc hmem ih =>
    rw [collectTypes, if_pos hmem]
    exact ih h
  | case3 n rest acc hmem t hlk hobj ih =>
    rw [collectTypes, if_neg hmem, hlk]
    dsimp only
    rw [if_pos hobj]
    exact ih (by simp [List.nodup_append, h, hmem])
  | case4 n rest acc hmem t hlk hobj ih =>
    rw [collectTypes, if_neg hmem, hlk]
    dsimp only
    rw [if_neg hobj]
    exact ih (by simp [List.nodup_append, h, hmem])
  | case5 n rest acc hmem hlk ih =>
    rw [collectTypes, if_neg hmem, hlk]
    exact ih (by simp [List.nodup_append, h, hmem])

/-- C6: the introspection-dependency collection terminates on every
schema — including cyclic type graphs — because a worklist head already
present in the `typesToInclude` accumulator is never re-entered (it is
skipped outright), and consequently each named type occurs at most once
in the accumulated list.  (Termination itself is witnessed by
`collectTypes` being a total function, defined by well-founded recursion
on the number of schema types not yet accumulated.) -/
theorem collectTypes_terminates_no_dup (s : Schema) :
    (∀ used : List String, (collectTypes s used []).Nodup) ∧
    (∀ (n : String) (wl acc : List String), n ∈ acc →
      collectTypes s (n :: wl) acc = collectTypes s wl acc) := by
  constructor
  · intro used
    exact collectTypes_nodup s used [] List.nodup_nil
  · intro n wl acc hmem
    rw [collectTypes, if_pos hmem]

/-- A deliberately cyclic schema: `Node.next : Node`. -/
def cyclicSchema : Schema :=
  ⟨[{ name := "Node", kind := .object, fields := [⟨"next", .named "Node"⟩] }]⟩

/-- Witness for C6 on the cyclic schema. -/
theorem collectTypes_terminates_no_dup_witness :
    (collectTypes cyclicSchema ["Node"] []).Nodup ∧
    collectTypes cyclicSchema ["Node", "Node"] ["Node"] =
      collectTypes cyclicSchema ["Node"] ["Node"] :=
  ⟨(collectTypes_terminates_no_dup cyclicSchema).1 ["Node"],
    (collectTypes_terminates_no_dup cyclicSchema).2 "Node" ["Node"] ["Node"]
      (List.mem_cons_self "Node" [])⟩

/-- The names reserved by the graphql library: built-in scalars and
introspection meta-types (user schemas may not declare them; `__` names
are reserved by the GraphQL spec and built-in scalars are injected by
the library). -/
def reservedNames : List String := (builtinScalars ++ introspectionTypes).map (fun t => t.name)

/-- A valid user schema declares no reserved name. -/
def noReservedNames (s : Schema) : Prop := ∀ t ∈ s.types, t.name ∉ reservedNames

instance (s : Schema) : Decidable (noReservedNames s) :=
  inferInstanceAs (Decidable (∀ t ∈ s.types, t.name ∉ reservedNames))

/-- Looking up a reserved name in a valid schema's type map resolves in
the library part of the map. -/
theorem lookupType_reserved (s : Schema) (hres : noReservedNames s) (n : String)
    (hn : n ∈ reservedNames) :
    lookupType s n =
      (builtinScalars ++ introspectionTypes).find? (fun t => decide (t.name = n)) := by
  rw [lookupType, typeMap, List.append_assoc, List.find?_append]
  have huser : s.types.find? (fun t => decide (t.name = n)) = none := by
    rw [List.find?_eq_none]
    intro t ht
    simp only [decide_eq_true_eq]
    intro he
    exact hres t ht (he ▸ hn)
  rw [huser]
  rfl

/-- Worklist step: a head already accumulated is skipped. -/
theorem collect_step_skip (s : Schema) (n : String) (wl acc : List String)
    (h : n ∈ acc) : collectTypes s (n :: wl) acc = collectTypes s wl acc := by
  rw [collectTypes, if_pos h]

/-- Worklist step: a new head naming an Object-variant type is
accumulated and its field types are prepended. -/
theorem collect_step_obj (s : Schema) (n : String) (wl acc : List String)
    (t : NamedType) (h : n ∉ acc) (hlk : lookupType s n = some t)
    (hobj : t.kind = TypeKind.object) :
    collectTypes s (n :: wl) acc =
      collectTypes s (t.fields.map (fun f => f.type.baseName) ++ wl) (acc ++ [n]) := by
  rw [collectTypes, if_neg h, hlk]
  dsimp only
  rw [if_pos hobj]

/-- Worklist step: a new head naming a non-Object type is accumulated
without expansion. -/
theorem collect_step_other (s : Schema) (n : String) (wl acc : List String)
    (t : NamedType) (h : n ∉ acc) (hlk : lookupType s n = some t)
    (hobj : t.kind ≠ TypeKind.object) :
    collectTypes s (n :: wl) acc = collectTypes s wl (acc ++ [n]) := by
  rw [collectTypes, if_neg h, hlk]
  dsimp only
  rw [if_neg hobj]

/-- Resolution of `__Type` in any valid schema. -/
theorem lookup_introType (s : Schema) (hres : noReservedNames s) :
    lookupType s "__Type" = some introTypeType := by
  rw [lookupType_reserved s hres _ (by decide)]
  rfl

/-- Resolution of `__TypeKind` in any valid schema. -/
theorem lookup_introTypeKind (s : Schema) (hres : noReservedNames s) :
    lookupType s "__TypeKind" = some introTypeKindType := by
  rw [lookupType_reserved s hres _ (by decide)]
  rfl

/-- Resolution of `String` in any valid schema. -/
theorem lookup_builtinString (s : Schema) (hres : noReservedNames s) :
    lookupType s "String" = some { name := "String", kind := .scalar } := by
  rw [lookupType_reserved s hres _ (by decide)]
  rfl

/-- Resolution of `Boolean` in any valid schema. -/
theorem lookup_builtinBoolean (s : Schema) (hres : noReservedNames s) :
    lookupType s "Boolean" = some { name := "Boolean", kind := .scalar } := by
  rw [lookupType_reserved s hres _ (by decide)]
  rfl

/-- Resolution of `__Field` in any valid schema. -/
theorem lookup_introField (s : Schema) (hres : noReservedNames s) :
    lookupType s "__Field" = some introFieldType := by
  rw [lookupType_reserved s hres _ (by decide)]
  rfl

/-- Resolution of `__InputValue` in any valid schema. -/
theorem lookup_introInputValue (s : Schema) (hres : noReservedNames s) :
    lookupType s "__InputValue" = some introInputValueType := by
  rw [lookupType_reserved s hres _ (by decide)]
  rfl

/-- Resolution of `__EnumValue` in any valid schema. -/
theorem lookup_introEnumValue (s : Schema) (hres : noReservedNames s) :
    lookupType s "__EnumValue" = some introEnumValueType := by
  rw [lookupType_reserved s hres _ (by decide)]
  rfl

/-- The collected closure of `__Type` in any valid schema: `__Type`, its
enum/scalar/object field dependencies, and their dependencies, in
depth-first visit order. -/
theorem collectTypes_type_closure (s : Schema) (hres : noReservedNames s) :
    collectTypes s ["__Type"] [] =
      ["__Type", "__TypeKind", "String", "__Field", "__InputValue", "Boolean",
        "__EnumValue"] := by
  rw [collect_step_obj s _ _ _ _ (by decide) (lookup_introType s hres) rfl]
  simp only [introTypeType, List.map_cons, List.map_nil, TypeRef.baseName, nnRef,
    nnListRef, listNNRef, List.cons_append, List.nil_append, List.append_nil]
  rw [collect_step_other s _ _ _ _ (by decide) (lookup_introTypeKind s hres) (by decide)]
  simp only [List.cons_append, List.nil_append, List.append_nil]
  rw [collect_step_other s _ _ _ _ (by decide) (lookup_builtinString s hres) (by decide)]
  simp only [List.cons_append, List.nil_append, List.append_nil]
  rw [collect_step_skip s _ _ _ (by decide)]
  rw [collect_step_obj s _ _ _ _ (by decide) (lookup_introField s hres) rfl]
  simp only [introFieldType, List.map_cons, List.map_nil, TypeRef.baseName, nnRef,
    nnListRef, listNNRef, List.cons_append, List.nil_append, List.append_nil]
  rw [collect_step_skip s _ _ _ (by decide)]
  rw [collect_step_skip s _ _ _ (by decide)]
  rw [collect_step_obj s _ _ _ _ (by decide) (lookup_introInputValue s hres) rfl]
  simp only [introInputValueType, List.map_cons, List.map_nil, TypeRef.baseName, nnRef,
    nnListRef, listNNRef, List.cons_append, List.nil_append, List.append_nil]
  rw [collect_step_skip s _ _ _ (by decide)]
  rw [collect_step_skip s _ _ _ (by decide)]
  rw [collect_step_skip s _ _ _ (by decide)]
  rw [collect_step_skip s _ _ _ (by decide)]
  rw [collect_step_skip s _ _ _ (by decide)]
  rw [collect_step_other s _ _ _ _ (by decide) (lookup_builtinBoolean s hres) (by decide)]
  simp only [List.cons_append, List.nil_append, List.append_nil]
  rw [collect_step_skip s _ _ _ (by decide)]
  rw [collect_step_skip s _ _ _ (by decide)]
  rw [collect_step_skip s _ _ _ (by decide)]
  rw [collect_step_obj s _ _ _ _ (by decide) (lookup_introEnumValue s hres) rfl]
  simp only [introEnumValueType, List.map_cons, List.map_nil, TypeRef.baseName, nnRef,
    nnListRef, listNNRef, List.cons_append, List.nil_append, List.append_nil]
  rw [collect_step_skip s _ _ _ (by decide)]
  rw [collect_step_skip s _ _ _ (by decide)]
  rw [collect_step_skip s _ _ _ (by decide)]
  rw [collect_step_skip s _ _ _ (by decide)]
  rw [collect_step_skip s _ _ _ (by decide)]
  rw [collect_step_skip s _ _ _ (by decide)]
  rw [collectTypes]

/-- The inner document fold keeps the accumulator `["__Type"]` when every
introspection reference is `__Type`. -/
theorem usedTypes_inner_preserve (l : List String)
    (h : ∀ n ∈ l, n ∈ introspectionTypeNames → n = "__Type") :
    l.foldl
      (fun acc2 n =>
        if n ∈ introspectionTypeNames ∧ n ∉ acc2 then acc2 ++ [n] else acc2)
      ["__Type"] = ["__Type"] := by
  induction l with
  | nil => rfl
  | cons n rest ih =>
    rw [List.foldl_cons]
    have hneg : ¬(n ∈ introspectionTypeNames ∧ n ∉ (["__Type"] : List String)) := by
      rintro ⟨h1, h2⟩
      exact h2 (by rw [h n (List.mem_cons_self n rest) h1]; exact List.mem_cons_self _ _)
    rw [if_neg hneg]
    exact ih (fun m hm => h m (List.mem_cons_of_mem n hm))

/-- The inner document fold from an empty accumulator records `__Type`
exactly when the document references it. -/
theorem usedTypes_inner_from_nil (l : List String)
    (h : ∀ n ∈ l, n ∈ introspectionTypeNames → n = "__Type") :
    l.foldl
      (fun acc2 n =>
        if n ∈ introspectionTypeNames ∧ n ∉ acc2 then acc2 ++ [n] else acc2)
      [] = if "__Type" ∈ l then ["__Type"] else [] := by
  induction l with
  | nil => simp
  | cons n rest ih =>
    rw [List.foldl_cons]
    by_cases hn : n ∈ introspectionTypeNames
    · have heq : n = "__Type" := h n (List.mem_cons_self n rest) hn
      subst heq
      rw [if_pos ⟨hn, by simp⟩]
      rw [show (([] : List String) ++ ["__Type"]) = ["__Type"] from rfl]
      rw [usedTypes_inner_preserve rest (fun m hm => h m (List.mem_cons_of_mem _ hm))]
      rw [if_pos (List.mem_cons_self _ _)]
    · rw [if_neg (by simp [hn])]
      rw [ih (fun m hm => h m (List.mem_cons_of_mem n hm))]
      have hne : "__Type" ≠ n :=
        fun he => hn (he ▸ (by decide : "__Type" ∈ introspectionTypeNames))
      by_cases hT : "__Type" ∈ rest
      · rw [if_pos hT, if_pos (List.mem_cons_of_mem n hT)]
      · rw [if_neg hT, if_neg (by simp [List.mem_cons, hne, hT])]

/-- The outer document fold keeps the accumulator `["__Type"]`. -/
theorem usedTypes_outer_preserve (ds : List Document)
    (h : ∀ d ∈ ds, ∀ n ∈ d.fieldTypes, n ∈ introspectionTypeNames → n = "__Type") :
    ds.foldl
      (fun acc d =>
        d.fieldTypes.foldl
          (fun acc2 n =>
            if n ∈ introspectionTypeNames ∧ n ∉ acc2 then acc2 ++ [n] else acc2)
          acc)
      ["__Type"] = ["__Type"] := by
  induction ds with
  | nil => rfl
  | cons d rest ih =>
    rw [List.foldl_cons, usedTypes_inner_preserve _ (h d (List.mem_cons_self d rest))]
    exact ih (fun d2 hd2 => h d2 (List.mem_cons_of_mem d hd2))

/-- When the documents reference only `__Type` among the introspection
meta-types, and at least one document does reference it, the recorded
used types are exactly `["__Type"]`. -/
theorem usedTypes_only_type (docs : List Document)
    (honly : ∀ d ∈ docs, ∀ n ∈ d.fieldTypes, n ∈ introspectionTypeNames → n = "__Type")
    (hsome : ∃ d ∈ docs, "__Type" ∈ d.fieldTypes) :
    usedTypes docs = ["__Type"] := by
  rw [usedTypes]
  induction docs with
  | nil => simp at hsome
  | cons d rest ih =>
    rw [List.foldl_cons, usedTypes_inner_from_nil _ (honly d (List.mem_cons_self d rest))]
    by_cases hd : "__Type" ∈ d.fieldTypes
    · rw [if_pos hd]
      exact usedTypes_outer_preserve rest (fun d2 hd2 => honly d2 (List.mem_cons_of_mem d hd2))
    · rw [if_neg hd]
      apply ih (fun d2 hd2 => honly d2 (List.mem_cons_of_mem d hd2))
      rcases hsome with ⟨d2, hd2, hd2T⟩
      rcases List.mem_cons.mp hd2 with heq | hmem
      · exact absurd (heq ▸ hd2T) hd
      · exact ⟨d2, hmem, hd2T⟩

/-- One structural dependency step of the introspection closure: `a`
resolves to an Object-variant type one of whose fields has named type
`b` (the relation followed by `collectTypes` — Interface/Union members
are not expanded). -/
def objEdge (s : Schema) (a b : String) : Prop :=
  ∃ t, lookupType s a = some t ∧ t.kind = TypeKind.object ∧
    b ∈ t.fields.map (fun f => f.type.baseName)

/-- Structural reachability by object fields. -/
def objReach (s : Schema) : String → String → Prop := Relation.ReflTransGen (objEdge s)

/-- The collected closure list is exactly the set of types structurally
reachable from `__Type` through object fields. -/
theorem closure_iff_reach (s : Schema) (hres : noReservedNames s) (x : String) :
    x ∈ ["__Type", "__TypeKind", "String", "__Field", "__InputValue", "Boolean",
        "__EnumValue"] ↔ objReach s "__Type" x := by
  have eTK : objEdge s "__Type" "__TypeKind" :=
    ⟨introTypeType, lookup_introType s hres, rfl, by decide⟩
  have eTS : objEdge s "__Type" "String" :=
    ⟨introTypeType, lookup_introType s hres, rfl, by decide⟩
  have eTF : objEdge s "__Type" "__Field" :=
    ⟨introTypeType, lookup_introType s hres, rfl, by decide⟩
  have eTI : objEdge s "__Type" "__InputValue" :=
    ⟨introTypeType, lookup_introType s hres, rfl, by decide⟩
  have eTE : objEdge s "__Type" "__EnumValue" :=
    ⟨introTypeType, lookup_introType s hres, rfl, by decide⟩
  have eFB : objEdge s "__Field" "Boolean" :=
    ⟨introFieldType, lookup_introField s hres, rfl, by decide⟩
  constructor
  · intro hx
    simp only [List.mem_cons, List.not_mem_nil, or_false] at hx
    rcases hx with rfl | rfl | rfl | rfl | rfl | rfl | rfl
    · exact Relation.ReflTransGen.refl
    · exact Relation.ReflTransGen.single eTK
    · exact Relation.ReflTransGen.single eTS
    · exact Relation.ReflTransGen.single eTF
    · exact Relation.ReflTransGen.single eTI
    · exact Relation.ReflTransGen.tail (Relation.ReflTransGen.single eTF) eFB
    · exact Relation.ReflTransGen.single eTE
  · intro hr
    induction hr with
    | refl => decide
    | tail hab hbc ih =>
      obtain ⟨t, hlk, hkind, hmem⟩ := hbc
      simp only [List.mem_cons, List.not_mem_nil, or_false] at ih
      rcases ih with rfl | rfl | rfl | rfl | rfl | rfl | rfl
      · rw [lookup_introType s hres] at hlk
        injection hlk with ht
        subst ht
        have hsub : ∀ z ∈ introTypeType.fields.map (fun f => f.type.baseName),
            z ∈ ["__Type", "__TypeKind", "String", "__Field", "__InputValue",
              "Boolean", "__EnumValue"] := by decide
        exact hsub _ hmem
      · rw [lookup_introTypeKind s hres] at hlk
        injection hlk with ht
        subst ht
        exact absurd hkind (by decide)
      · rw [lookup_builtinString s hres] at hlk
        injection hlk with ht
        subst ht
        exact absurd hkind (by decide)
      · rw [lookup_introField s hres] at hlk
        injection hlk with ht
        subst ht
        have hsub : ∀ z ∈ introFieldType.fields.map (fun f => f.type.baseName),
            z ∈ ["__Type", "__TypeKind", "String", "__Field", "__InputValue",
              "Boolean", "__EnumValue"] := by decide
        exact hsub _ hmem
      · rw [lookup_introInputValue s hres] at hlk
        injection hlk with ht
        subst ht
        have hsub : ∀ z ∈ introInputValueType.fields.map (fun f => f.type.baseName),
            z ∈ ["__Type", "__TypeKind", "String", "__Field", "__InputValue",
              "Boolean", "__EnumValue"] := by decide
        exact hsub _ hmem
      · rw [lookup_builtinBoolean s hres] at hlk
        injection hlk with ht
        subst ht
        exact absurd hkind (by decide)
      · rw [lookup_introEnumValue s hres] at hlk
        injection hlk with ht
        subst ht
        have hsub : ∀ z ∈ introEnumValueType.fields.map (fun f => f.type.baseName),
            z ∈ ["__Type", "__TypeKind", "String", "__Field", "__InputValue",
              "Boolean", "__EnumValue"] := by decide
        exact hsub _ hmem

/-- C4: when the provided documents reference, among introspection
meta-types, only `__Type` (as a document selecting the field path
`__Type.name` does — its field selections resolve to `__Type` and the
scalar `String`), the collected set is exactly `__Type` together with
every type structurally reachable from `__Type` by recursively
following the named types of Object-variant fields (Interface/Union
members are not expanded), and the returned introspection declarations
are exactly the reachable introspection-schema types — `__Type`,
`__Field`, `__InputValue`, `__EnumValue`, `__TypeKind` — and nothing
else from the introspection schema (no `__Schema`, `__Directive`,
`__DirectiveLocation`). -/
theorem includeIntrospection_reachable_from_type (s : Schema) (docs : List Document)
    (c : TypeScriptPluginConfig) (hres : noReservedNames s)
    (honly : ∀ d ∈ docs, ∀ n ∈ d.fieldTypes, n ∈ introspectionTypeNames → n = "__Type")
    (hsome : ∃ d ∈ docs, "__Type" ∈ d.fieldTypes) :
    (∀ x : String, x ∈ typesToInclude s docs ↔ objReach s "__Type" x) ∧
    includeIntrospectionDefinitions s docs c =
      [renderDecl c introTypeType, renderDecl c introFieldType,
        renderDecl c introInputValueType, renderDecl c introEnumValueType,
        renderDecl c introTypeKindType] := by
  have hused : usedTypes docs = ["__Type"] := usedTypes_only_type docs honly hsome
  have hinc : typesToInclude s docs =
      ["__Type", "__TypeKind", "String", "__Field", "__InputValue", "Boolean",
        "__EnumValue"] := by
    rw [typesToInclude, hused, collectTypes_type_closure s hres]
  constructor
  · intro x
    rw [hinc]
    exact closure_iff_reach s hres x
  · rw [includeIntrospectionDefinitions, hinc]
    have hfilter : introspectionTypes.filter
        (fun t => decide (t.name ∈
          ["__Type", "__TypeKind", "String", "__Field", "__InputValue", "Boolean",
            "__EnumValue"])) =
        [introTypeType, introFieldType, introInputValueType, introEnumValueType,
          introTypeKindType] := by decide
    rw [hfilter]
    rfl

/-- Witness for C4 at a concrete input: the sample schema with a
document whose field selections resolve to `__Type` and `String` (the
shape of `{ __type(name: ...) { name } }`). -/
theorem includeIntrospection_reachable_from_type_witness :
    (noReservedNames sampleSchema ∧
      (∀ d ∈ [Document.mk ["__Type", "String"]],
        ∀ n ∈ d.fieldTypes, n ∈ introspectionTypeNames → n = "__Type") ∧
      (∃ d ∈ [Document.mk ["__Type", "String"]], "__Type" ∈ d.fieldTypes)) ∧
    includeIntrospectionDefinitions sampleSchema [Document.mk ["__Type", "String"]]
        defaultConfig =
      [renderDecl defaultConfig introTypeType, renderDecl defaultConfig introFieldType,
        renderDecl defaultConfig introInputValueType,
        renderDecl defaultConfig introEnumValueType,
        renderDecl defaultConfig introTypeKindType] :=
  ⟨⟨by decide, by decide, by decide⟩,
    (includeIntrospection_reachable_from_type sampleSchema
        [Document.mk ["__Type", "String"]] defaultConfig (by decide) (by decide)
        (by decide)).2⟩
